import Mathlib

/-!
Shallow embedding of the listme/rememberme tag-extraction engine
(src/rememberme/parser.py and src/listme/git_tools.py), over lists of
characters.  The Python regular expressions are specialised to the concrete
patterns used by the source, with Python backtracking semantics: leftmost
search, greedy and lazy repetition with backtracking, word boundaries, and
the end-of-string anchor that also matches just before a trailing newline.
Unicode-only corner cases of the Python character classes (non-ASCII
whitespace and word characters) are modelled by their ASCII fragments.
-/

namespace Listme

/-- Python regex class `\s`, restricted to its ASCII characters. -/
def pySpace (c : Char) : Bool :=
  c = ' ' || c = '\t' || c = '\n' || c = '\r' || c = '\x0b' || c = '\x0c'

/-- Python regex class `\w`, restricted to ASCII: letters, digits, underscore. -/
def isWordChar (c : Char) : Bool :=
  c.isAlpha || c.isDigit || c = '_'

/-- Character class `[\s:;-]` of the tags regex (parser.py line 335). -/
def sepClass (c : Char) : Bool :=
  pySpace c || c = ':' || c = ';' || c = '-'

/-- Line boundary characters recognised by Python str.splitlines. -/
def isLineBoundary (c : Char) : Bool :=
  c = '\n' || c = '\r' || c = '\x0b' || c = '\x0c' ||
  c = '\x1c' || c = '\x1d' || c = '\x1e' || c = '\x85' ||
  c = '\u2028' || c = '\u2029'

/-- Python str.splitlines: split at line boundaries, treating a "\r\n" pair
as a single boundary, and emitting no final empty line after a trailing
boundary. -/
def splitlines : List Char → List (List Char)
  | [] => []
  | [c] => if isLineBoundary c then [[]] else [[c]]
  | c :: d :: rest =>
    if c = '\r' ∧ d = '\n' then [] :: splitlines rest
    else if isLineBoundary c then [] :: splitlines (d :: rest)
    else
      match splitlines (d :: rest) with
      | [] => [[c]]
      | seg :: segs => (c :: seg) :: segs

/-- Evaluation of splitlines at a non-boundary head. -/
lemma splitlines_cons_nb {c : Char} {rest : List Char} (h : isLineBoundary c = false) :
    splitlines (c :: rest) =
      match splitlines rest with
      | [] => [[c]]
      | seg :: segs => (c :: seg) :: segs := by
  have hcr : ¬c = '\r' := by
    intro hc
    rw [hc] at h
    exact absurd h (by decide)
  cases rest with
  | nil =>
    show (if isLineBoundary c then [[]] else [[c]]) = _
    rw [h]
    rfl
  | cons d r2 =>
    show (if c = '\r' ∧ d = '\n' then [] :: splitlines r2
      else if isLineBoundary c then [] :: splitlines (d :: r2)
      else
        match splitlines (d :: r2) with
        | [] => [[c]]
        | seg :: segs => (c :: seg) :: segs) = _
    rw [if_neg (by intro hand; exact hcr hand.1), h]
    simp

/-- Evaluation of splitlines at a newline head. -/
lemma splitlines_cons_nl (tail : List Char) :
    splitlines ('\n' :: tail) = [] :: splitlines tail := by
  cases tail with
  | nil => rfl
  | cons d r2 =>
    show (if ('\n' : Char) = '\r' ∧ d = '\n' then [] :: splitlines r2
      else if isLineBoundary '\n' then [] :: splitlines (d :: r2)
      else
        match splitlines (d :: r2) with
        | [] => [['\n']]
        | seg :: segs => ('\n' :: seg) :: segs) = _
    rw [if_neg (by intro hand; exact absurd hand.1 (by decide)), if_pos (by decide)]

/-- One candidate split of a folder-mode output line at position `j`,
mirroring the anchored match of `^(.+):([0-9]+):(.*)` in which the greedy
`(.+)` captures exactly the first `j` characters: `(.+)` cannot contain a
newline, `[0-9]+` is the maximal digit run after the colon (backtracking
inside the run always hits another digit, so the run must be followed by a
colon), and `(.*)` captures the remainder up to a newline. -/
def folderSplitAt (l : List Char) (j : Nat) : Option (List (List Char)) :=
  match l.drop j with
  | ':' :: rest =>
    if (l.take j).any (· = '\n') then none
    else
      let ds := rest.takeWhile Char.isDigit
      if ds.isEmpty then none
      else
        match rest.drop ds.length with
        | ':' :: t => some [l.take j, ds, t.takeWhile (· ≠ '\n')]
        | _ => none
  | _ => none

/-- Python re.findall("^(.+):([0-9]+):(.*)", line): the pattern is anchored,
so there is at most one match, and the greedy `(.+)` makes the split land at
the last position `j ≥ 1` admitting a valid colon-digits-colon separation;
the candidate positions are therefore tried in descending order. -/
def matchFolderLine (l : List Char) : Option (List (List Char)) :=
  ((List.range' 1 (l.length - 1)).reverse).findSome? (folderSplitAt l)

/-- Python re.findall("^([0-9]+):(.*)", line): maximal digit run at the
start of the line, which must be followed by a colon. -/
def matchFileLine (l : List Char) : Option (List (List Char)) :=
  let ds := l.takeWhile Char.isDigit
  if ds.isEmpty then none
  else
    match l.drop ds.length with
    | ':' :: t => some [ds, t.takeWhile (· ≠ '\n')]
    | _ => none

/-- Dictionary bookkeeping of parse_rg_output_folder (setdefault plus
append): append the line number and text to the entry of `file`, creating
the entry at the end, in insertion order, when absent. -/
def appendHit (m : List (List Char × (List (List Char) × List (List Char))))
    (file n t : List Char) :
    List (List Char × (List (List Char) × List (List Char))) :=
  match m with
  | [] => [(file, ([n], [t]))]
  | (k, (ns, ts)) :: rest =>
    if k = file then (k, (ns ++ [n], ts ++ [t])) :: rest
    else (k, (ns, ts)) :: appendHit rest file n t

/-- Message of the ParsingError raised by the output parsers. -/
def parseErrorMsg : String := "ripgrep output could not be parsed"

/-- Main loop of parse_rg_output_folder over the split output lines:
unmatched lines are skipped, and a match whose group tuple does not have
exactly three fields raises ParsingError (modelled as Except.error). -/
def parseFolderLines :
    List (List Char) → List (List Char × (List (List Char) × List (List Char))) →
    Except String (List (List Char × (List (List Char) × List (List Char))))
  | [], acc => .ok acc
  | line :: rest, acc =>
    match matchFolderLine line with
    | none => parseFolderLines rest acc
    | some gs =>
      match gs with
      | [file, n, t] => parseFolderLines rest (appendHit acc file n t)
      | _ => .error parseErrorMsg

/-- parse_rg_output_folder (parser.py lines 84-102). -/
def parse_rg_output_folder (output : List Char) :
    Except String (List (List Char × (List (List Char) × List (List Char)))) :=
  parseFolderLines (splitlines output) []

/-- Main loop of parse_rg_output_file over the split output lines; the
result dictionary with its parallel "lines" and "texts" values is modelled
as a pair of lists. -/
def parseFileLines :
    List (List Char) → (List (List Char) × List (List Char)) →
    Except String (List (List Char) × List (List Char))
  | [], acc => .ok acc
  | line :: rest, acc =>
    match matchFileLine line with
    | none => parseFileLines rest acc
    | some gs =>
      match gs with
      | [n, t] => parseFileLines rest (acc.1 ++ [n], acc.2 ++ [t])
      | _ => .error parseErrorMsg

/-- parse_rg_output_file (parser.py lines 105-122). -/
def parse_rg_output_file (output : List Char) :
    Except String (List (List Char) × List (List Char)) :=
  parseFileLines (splitlines output) ([], [])

/-- Closing comment tokens shared by COMMENT_REGEX (parser.py lines 21-23)
and the trailing part of the tags regex (parser.py line 336): for
decomposability into tokens, the one-or-more hash run `#+` is equivalent to
single hash tokens. -/
def closerTokens : List (List Char) :=
  [['-', '-', '>'], ['#', '\x7d', '\x7d'], ['*', '/'],
   ['-', '-', '\x7d', '\x7d'], ['\x7d', '\x7d'], ['#'], ['#', '\x7d'],
   ['\"', '\"', '\"'], ['\'', '\'', '\'']]

/-- Fuel-indexed decider of the closer-token star language: `l` decomposes
into a concatenation of closing tokens. -/
def isCloserSeqF : Nat → List Char → Bool
  | 0, l => l.isEmpty
  | fuel + 1, l =>
    if l.isEmpty then true
    else closerTokens.any fun tk => tk.isPrefixOf l && isCloserSeqF fuel (l.drop tk.length)

/-- Decider of the closer-token star language, with sufficient fuel. -/
def isCloserSeq (l : List Char) : Bool := isCloserSeqF l.length l

/-- Strip one trailing newline: the Python `$` anchor matches at the end of
the string and also just before a newline that ends the string. -/
def stripNl (l : List Char) : List Char :=
  if l.getLast? = some '\n' then l.dropLast else l

/-- Success of `(?:$|CL)*$` (equivalently of `(?:CL)*$`) on a suffix: the
suffix, with a single trailing newline ignored, decomposes into closing
tokens. -/
def closerTail (l : List Char) : Bool := isCloserSeq (stripNl l)

/-- Lazy capture of `(.+?)` followed by `(?:$|CL)*$`: at least one
character, each matched by `.` (hence not a newline), growing from the
shortest capture until the remaining suffix is a closer sequence. -/
def lazyCapture : List Char → Option (List Char)
  | [] => none
  | c :: rest =>
    if c = '\n' then none
    else if closerTail rest then some [c]
    else (lazyCapture rest).map (c :: ·)

/-- Backtracking choices for one opening comment token at the head of `l`
(`#+`, `//+`, "<!--", "--", "/*", three double quotes, three single
quotes), in the alternation order of the regexes, longest run first for the
greedy `#+` and `//+`. -/
def openerLens (l : List Char) : List Nat :=
  if l.head? = some '#' then
    (List.range' 1 (l.takeWhile (· = '#')).length).reverse
  else if l.take 2 = ['/', '/'] then
    (List.range' 2 ((l.takeWhile (· = '/')).length - 1)).reverse
  else if l.take 4 = ['<', '!', '-', '-'] then [4]
  else if l.take 2 = ['-', '-'] then [2]
  else if l.take 2 = ['/', '*'] then [2]
  else if l.take 3 = ['\"', '\"', '\"'] then [3]
  else if l.take 3 = ['\'', '\'', '\''] then [3]
  else []

/-- Greedy tail of the leading alternative `(?:(?:OP)+\s*)+\s*` after its
first opening token: repeatedly consume the first-choice opening token or a
whitespace run until neither applies; nothing after this prefix can fail in
COMMENT_REGEX, so the greedy first path is the match. -/
def chompOpeners : Nat → List Char → List Char
  | 0, l => l
  | fuel + 1, l =>
    match (openerLens l).head? with
    | some n => chompOpeners fuel (l.drop n)
    | none =>
      if l.takeWhile pySpace ≠ [] then chompOpeners fuel (l.dropWhile pySpace)
      else l

/-- Remainder of the line after the leading alternative
`^(?:(?:(?:OP)+\s*)+)\s*` of COMMENT_REGEX: the alternative participates
only when an opening token starts the string. -/
def leadRemainder (l : List Char) : List Char :=
  match (openerLens l).head? with
  | some n => chompOpeners l.length (l.drop n)
  | none => l

/-- Replacement of the trailing alternative `(?:CL)*$` of COMMENT_REGEX by
the empty string: the removed span starts at the first position whose
suffix is a closer sequence; when `$` matched before a trailing newline the
newline itself is outside the match and is kept. -/
def trailStrip : List Char → List Char
  | [] => []
  | c :: rest =>
    if closerTail (c :: rest) then
      if isCloserSeq (c :: rest) then [] else ['\n']
    else c :: trailStrip rest

/-- Text cleaning applied by prettify_line (parser.py line 142):
re.sub(COMMENT_REGEX, "", text).  The leading alternative can match only at
position zero; the scan then removes the span from the first position whose
suffix is a sequence of closing tokens. -/
def clean (l : List Char) : List Char := trailStrip (leadRemainder l)

/-- Whitespace backtracking choices of a greedy `\s*` at the head of `l`:
the consumed lengths from the full run down to zero. -/
def wsChoices (l : List Char) : List Nat :=
  (List.range' 0 ((l.takeWhile pySpace).length + 1)).reverse

/-- Offsets reachable by `(?:OP)*` (zero or more opening tokens) from the
head of `l`, in backtracking order: another token first, alternatives in
alternation order, stopping last. -/
def opStarF : Nat → List Char → List Nat
  | 0, _ => [0]
  | fuel + 1, l =>
    ((openerLens l).flatMap fun n => (opStarF fuel (l.drop n)).map (n + ·)) ++ [0]

/-- Offsets reachable by `(?:OP)+` (at least one opening token). -/
def opPlusF (fuel : Nat) (l : List Char) : List Nat :=
  (openerLens l).flatMap fun n => (opStarF fuel (l.drop n)).map (n + ·)

/-- Offsets reachable by one repetition `(?:OP)+\s*`. -/
def repChoicesF (fuel : Nat) (l : List Char) : List Nat :=
  (opPlusF fuel l).flatMap fun a => (wsChoices (l.drop a)).map (a + ·)

/-- Offsets reachable by `(?:(?:OP)+\s*)*`, in backtracking order. -/
def repsStarF : Nat → List Char → List Nat
  | 0, _ => [0]
  | fuel + 1, l =>
    ((repChoicesF fuel l).flatMap fun a => (repsStarF fuel (l.drop a)).map (a + ·)) ++ [0]

/-- Offsets reachable by `(?:(?:OP)+\s*)+` (at least one repetition). -/
def repsPlusF (fuel : Nat) (l : List Char) : List Nat :=
  (repChoicesF fuel l).flatMap fun a => (repsStarF fuel (l.drop a)).map (a + ·)

/-- Candidate tag-start positions explored from anchored position `p` by
the prefix `(?:^|(?:(?:OP)+\s*)+)\s*` of the tags regex, in backtracking
order: the `^` alternative (position zero only) with the final `\s*`
backtracking from its longest run, then the opening-token alternative. -/
def prefixQs (s : List Char) (p : Nat) : List Nat :=
  (if p = 0 then (wsChoices (s.drop p)).map (p + ·) else []) ++
    (repsPlusF ((s.drop p).length + 1) (s.drop p)).flatMap fun b =>
      (wsChoices (s.drop (p + b))).map fun w => p + b + w

/-- Truth of `\w` at index `i` of `s` (false outside the string). -/
def wordAt (s : List Char) (i : Nat) : Bool :=
  match (s.drop i).head? with
  | some c => isWordChar c
  | none => false

/-- Python word boundary `\b` at position `q` of `s`: exactly one of the
two neighbouring positions holds a word character. -/
def wordBoundary (s : List Char) (q : Nat) : Bool :=
  (decide (q ≠ 0) && wordAt s (q - 1)) != wordAt s q

/-- Zero-width `(?:^|\b)` immediately before the tag group. -/
def tagAnchor (s : List Char) (q : Nat) : Bool :=
  q = 0 || wordBoundary s q

/-- Backtracking of the greedy `[\s:;-]+` through the number of consumed
separators, from the maximal run downwards, followed by the lazy capture. -/
def sepBacktrack : Nat → List Char → Option (List Char)
  | 0, _ => none
  | k + 1, l => (lazyCapture (l.drop (k + 1))).orElse fun _ => sepBacktrack k l

/-- Match of `[\s:;-]+(.+?)(?:$|CL)*$` against the suffix after the tag. -/
def matchAfterTag (l : List Char) : Option (List Char) :=
  sepBacktrack (l.takeWhile sepClass).length l

/-- Attempt of the alternation of configured tags, then the separator class
and the capture, at tag-start position `q`. -/
def tryTagsAt (tags : List (List Char)) (s : List Char) (q : Nat) :
    Option (List Char × List Char) :=
  if tagAnchor s q then
    tags.findSome? fun t =>
      if t.isPrefixOf (s.drop q) then
        (matchAfterTag (s.drop (q + t.length))).map fun txt => (t, txt)
      else none
  else none

/-- Anchored attempt of the whole tags regex at start position `p`. -/
def anchoredTags (tags : List (List Char)) (s : List Char) (p : Nat) :
    Option (List Char × List Char) :=
  (prefixQs s p).findSome? (tryTagsAt tags s)

/-- Python re.search(tags_regex, text) built by main (parser.py lines
333-337) and applied per line by print_parsed_file (lines 211-221): start
positions are tried from the left, and the first success yields the pair of
capture groups (tag, remaining text). -/
def tagsSearch (tags : List (List Char)) (s : List Char) :
    Option (List Char × List Char) :=
  (List.range' 0 (s.length + 1)).findSome? (anchoredTags tags s)

/-- Minimal git author information (listme/git_tools.py lines 13-18);
datetime values are modelled as integer timestamps in seconds, with 86400
seconds per day.  The dataclass default (empty name, today) is built by
defaultAuthor below. -/
structure AuthorInfo where
  name : String
  date : Int
deriving DecidableEq, Repr

/-- Default AuthorInfo: empty name and today's date; the evaluation time of
the default is passed explicitly as `today`. -/
def defaultAuthor (today : Int) : AuthorInfo := ⟨"", today⟩

/-- colorize (parser.py lines 37-55). -/
def colorize (s : String) (tag : String) : String :=
  if tag = "TODO" then "[cadet_blue]" ++ s ++ "[/cadet_blue]"
  else if tag = "XXX" then "[grey0 on gold3]" ++ s ++ "[/grey0 on gold3]"
  else if tag = "FIXME" then "[red1]" ++ s ++ "[/red1]"
  else if tag = "OPTIMIZE" then "[orange3]" ++ s ++ "[/orange3]"
  else if tag = "BUG" then "[grey93 on dark_red]" ++ s ++ "[/grey93 on dark_red]"
  else if tag = "NOTE" then "[dark_sea_green4]" ++ s ++ "[/dark_sea_green4]"
  else if tag = "HACK" then "[yellow3]" ++ s ++ "[/yellow3]"
  else if tag = "#OLD__COMMIT" then "[grey85 on red3]" ++ s ++ "[/grey85 on red3]"
  else s

/-- Staleness test applied by tag_git_author (parser.py line 170):
author_info.date < datetime.now() - timedelta(days=age_limit); the current
time is passed explicitly as `now`. -/
def gitAuthorStale (a : AuthorInfo) (ageLimit : Int) (now : Int) : Bool :=
  a.date < now - ageLimit * 86400

/-- tag_git_author (parser.py lines 164-180); datetime.now() and the CONFIG
"extra_symbols" preference are passed explicitly. -/
def tag_git_author (a : AuthorInfo) (tag : String) (ageLimit : Int)
    (style : String) (now : Int) (extraSymbols : Bool) : String :=
  if a.name = "" ∨ style = "plain" then ""
  else
    let stale := gitAuthorStale a ageLimit now
    let gitAuthor :=
      if stale then
        if extraSymbols then "[bold]☠ OLD " ++ a.name ++ "[/bold]"
        else "[bold]OLD " ++ a.name ++ "[/bold]"
      else a.name
    let tag1 := if stale then "#OLD__COMMIT" else tag
    let gitAuthor1 := "[" ++ gitAuthor ++ "]"
    let gitAuthor2 := if style = "full" then colorize gitAuthor1 tag1 ++ " " else gitAuthor1
    " " ++ gitAuthor2 ++ " "

/-- Count of tag kinds with a positive count:
sum(count > 0 for count in tag_counter.values()), parser.py line 191. -/
def countPositive (tagCounter : List (String × Nat)) : Nat :=
  (tagCounter.filter fun p => 0 < p.2).length

/-- Emission condition of print_summary (parser.py lines 189-192): the
summary panel is printed only when more than one tag kind has a positive
count and the style is not "plain". -/
def printSummaryEmits (tagCounter : List (String × Nat)) (style : String) : Bool :=
  decide (1 < countPositive tagCounter) && !(style = "plain")

/-- Gate applied by print_parsed_file before calling print_summary
(parser.py line 243): without the summary option the counter is emptied. -/
def summaryCounter (summaryFlag : Bool) (tagCounter : List (String × Nat)) :
    List (String × Nat) :=
  if summaryFlag then tagCounter else []

/-- Python re.match of r"^(.{40}) \d+ (\d+)" (hash_regex of parse_blame):
forty non-newline characters, a space, a maximal digit run, a space and a
second captured digit run; re.match needs only a prefix of the line. -/
def matchHashLine (l : List Char) : Option (List Char × List Char) :=
  let h := l.take 40
  if h.length = 40 ∧ h.all (· ≠ '\n') then
    match l.drop 40 with
    | ' ' :: rest =>
      let d1 := rest.takeWhile Char.isDigit
      if d1.isEmpty then none
      else
        match rest.drop d1.length with
        | ' ' :: rest2 =>
          let d2 := rest2.takeWhile Char.isDigit
          if d2.isEmpty then none else some (h, d2)
        | _ => none
    | _ => none
  else none

/-- Python re.match of r"^author (.+)" (author_regex of parse_blame). -/
def matchAuthorLine (l : List Char) : Option (List Char) :=
  if ("author ".toList).isPrefixOf l then
    let rest := (l.drop 7).takeWhile (· ≠ '\n')
    if rest.isEmpty then none else some rest
  else none

/-- Python re.match of r"^author-time (\d+)" (time_regex of parse_blame). -/
def matchTimeLine (l : List Char) : Option (List Char) :=
  if ("author-time ".toList).isPrefixOf l then
    let ds := (l.drop 12).takeWhile Char.isDigit
    if ds.isEmpty then none else some ds
  else none

/-- Value of a digit string (Python int). -/
def digitsToNat (ds : List Char) : Nat :=
  ds.foldl (fun acc c => acc * 10 + (c.toNat - 48)) 0

/-- Item assignment into an association list (Python dict assignment). -/
def assocSet (m : List (Nat × List Char)) (k : Nat) (v : List Char) :
    List (Nat × List Char) :=
  match m with
  | [] => [(k, v)]
  | (k0, v0) :: rest => if k0 = k then (k0, v) :: rest else (k0, v0) :: assocSet rest k v

/-- dict.setdefault followed by an update of the name field
(listme/git_tools.py lines 44-46). -/
def setAuthorName (m : List (List Char × AuthorInfo)) (k : List Char)
    (v : String) (today : Int) : List (List Char × AuthorInfo) :=
  match m with
  | [] => [(k, { defaultAuthor today with name := v })]
  | (k0, a) :: rest =>
    if k0 = k then (k0, { a with name := v }) :: rest
    else (k0, a) :: setAuthorName rest k v today

/-- dict.setdefault followed by an update of the date field
(listme/git_tools.py lines 50-52). -/
def setAuthorDate (m : List (List Char × AuthorInfo)) (k : List Char)
    (d : Int) (today : Int) : List (List Char × AuthorInfo) :=
  match m with
  | [] => [(k, { defaultAuthor today with date := d })]
  | (k0, a) :: rest =>
    if k0 = k then (k0, { a with date := d }) :: rest
    else (k0, a) :: setAuthorDate rest k d today

/-- parse_blame (listme/git_tools.py lines 29-54): one step of the
porcelain blame fold, threading the current commit hash, the line-to-hash
table and the hash-to-author table. -/
def parse_blame (blame : List Char) (currentHash : List Char)
    (linesHash : List (Nat × List Char))
    (hashAuthors : List (List Char × AuthorInfo)) (today : Int) :
    List Char × List (Nat × List Char) × List (List Char × AuthorInfo) :=
  match matchHashLine blame with
  | some (h, lineNo) => (h, assocSet linesHash (digitsToNat lineNo) h, hashAuthors)
  | none =>
    match matchAuthorLine blame with
    | some nm =>
      (currentHash, linesHash, setAuthorName hashAuthors currentHash (String.mk nm) today)
    | none =>
      match matchTimeLine blame with
      | some ts =>
        (currentHash, linesHash,
          setAuthorDate hashAuthors currentHash (Int.ofNat (digitsToNat ts)) today)
      | none => (currentHash, linesHash, hashAuthors)

/-- Python max over a list of naturals; max() raises on an empty list, a
case its caller must rule out before using this value. -/
def maxList (l : List Nat) : Nat := l.foldl max 0

/-- blame_lines (listme/git_tools.py lines 57-68): the blame collaborator
output is passed as the list of its lines.  Exceptions are modelled as
none: indexing blames[0] fails on empty output, and max() fails on an
empty requested-line list. -/
def blame_lines (blames : List (List Char)) (lineNums : List Nat) (today : Int) :
    Option (List AuthorInfo) :=
  match blames with
  | [] => none
  | b0 :: _ =>
    if ("fatal".toList).isPrefixOf b0 then
      match lineNums with
      | [] => none
      | _ :: _ => some (List.replicate (1 + maxList lineNums) (defaultAuthor today))
    else
      let st := blames.foldl
        (fun st b => parse_blame b st.1 st.2.1 st.2.2 today)
        ("null".toList, ([], []))
      some (lineNums.map fun line =>
        ((st.2.2.lookup ((st.2.1.lookup line).getD ("no-hash".toList))).getD
          (defaultAuthor today)))

/-- Decimal digit characters of a natural number, structured by fuel on the
number of digits. -/
def toDecimalF : Nat → Nat → List Char
  | 0, _ => []
  | fuel + 1, n =>
    if n < 10 then [Char.ofNat (48 + n)]
    else toDecimalF fuel (n / 10) ++ [Char.ofNat (48 + n % 10)]

/-- Decimal digit characters of a natural number (the synthetic line-number
field of the round-trip property). -/
def toDecimal (n : Nat) : List Char := toDecimalF (n + 1) n

/-- Synthetic folder-mode search line "file:N:text". -/
def syntheticLine (tr : List Char × Nat × List Char) : List Char :=
  tr.1 ++ ':' :: toDecimal tr.2.1 ++ ':' :: tr.2.2

/-- Non-stale and stale renderings of tag_git_author differ (their lengths
differ). -/
lemma short_ne_old (nm : String) :
    " [" ++ nm ++ "] " ≠ " [[bold]OLD " ++ nm ++ "[/bold]] " := by
  intro h
  have hl := congrArg String.length h
  simp [String.length_append, show (" [" : String).length = 2 from rfl,
    show ("] " : String).length = 2 from rfl,
    show (" [[bold]OLD " : String).length = 12 from rfl,
    show ("[/bold]] " : String).length = 9 from rfl] at hl
  omega

/-- Computation of tag_git_author in the black-and-white style without
extra symbols, for a non-empty author name. -/
lemma tag_git_author_bw (nm : String) (hnm : nm ≠ "") (d age now : Int) (tag : String) :
    tag_git_author ⟨nm, d⟩ tag age "bw" now false =
      if gitAuthorStale ⟨nm, d⟩ age now then " [[bold]OLD " ++ nm ++ "[/bold]] "
      else " [" ++ nm ++ "] " := by
  rw [tag_git_author, if_neg (by simp [hnm])]
  cases h : gitAuthorStale ⟨nm, d⟩ age now <;>
    simp only [h, if_true, if_false, Bool.false_eq_true, Bool.true_eq_false] <;>
    · simp only [if_neg (by decide : ¬("bw" : String) = "full")]
      apply String.ext
      simp [String.data_append]

/-- C5: the staleness classification applied by tag_git_author holds
exactly when the author date is strictly earlier than now minus the age
limit in days; an entry dated exactly age_limit days ago is not marked OLD,
while an entry one day older is marked OLD. -/
theorem tag_git_author_staleness_boundary (now age : Int) (hage : 0 ≤ age) :
    (∀ (nm : String) (d : Int) (tag : String), nm ≠ "" →
      (tag_git_author ⟨nm, d⟩ tag age "bw" now false =
          " [[bold]OLD " ++ nm ++ "[/bold]] " ↔ d < now - age * 86400))
    ∧ (∀ (nm tag : String), nm ≠ "" →
        tag_git_author ⟨nm, now - age * 86400⟩ tag age "bw" now false =
          " [" ++ nm ++ "] ")
    ∧ (∀ (nm tag : String), nm ≠ "" →
        tag_git_author ⟨nm, now - (age + 1) * 86400⟩ tag age "bw" now false =
          " [[bold]OLD " ++ nm ++ "[/bold]] ") := by
  refine ⟨?_, ?_, ?_⟩
  · intro nm d tag hnm
    rw [tag_git_author_bw nm hnm]
    constructor
    · intro h
      by_contra hc
      rw [if_neg (by simp [gitAuthorStale]; omega)] at h
      exact short_ne_old nm h
    · intro h
      rw [if_pos (by simp [gitAuthorStale]; omega)]
  · intro nm tag hnm
    rw [tag_git_author_bw nm hnm, if_neg (by simp [gitAuthorStale])]
  · intro nm tag hnm
    have hs : gitAuthorStale ⟨nm, now - (age + 1) * 86400⟩ age now = true := by
      simp only [gitAuthorStale, decide_eq_true_eq]
      omega
    rw [tag_git_author_bw nm hnm, if_pos hs]

/-- Witness for C5 at a concrete instant and age limit 60 days. -/
theorem tag_git_author_staleness_boundary_witness :
    tag_git_author ⟨"ada", 0 - 60 * 86400⟩ "TODO" 60 "bw" 0 false = " [ada] " ∧
    tag_git_author ⟨"ada", 0 - 61 * 86400⟩ "TODO" 60 "bw" 0 false =
      " [[bold]OLD ada[/bold]] " := by
  refine ⟨(tag_git_author_staleness_boundary 0 60 (by decide)).2.1 "ada" "TODO" ?_, ?_⟩
  · decide
  · exact (tag_git_author_staleness_boundary 0 60 (by decide)).2.2 "ada" "TODO"
      (by decide)

/-- C6: the sentinel AuthorInfo, with its empty name, is never reported as
old by tag_git_author: the function returns the empty string for it
regardless of date, tag, age limit, style, time and symbol preference. -/
theorem tag_git_author_sentinel_never_old (d : Int) (tag : String) (age : Int)
    (style : String) (now : Int) (es : Bool) :
    tag_git_author ⟨"", d⟩ tag age style now es = "" := by
  rw [tag_git_author, if_pos]
  left
  rfl

/-- C7 counterexample: a tally with two distinct positive tag kinds emits
no summary when the style is "plain". -/
theorem print_summary_plain_counterexample :
    1 < countPositive [("TODO", 1), ("FIXME", 2)] ∧
    printSummaryEmits (summaryCounter true [("TODO", 1), ("FIXME", 2)]) "plain" = false := by
  constructor <;> decide

/-- C7 amended: a per-file summary is emitted exactly when more than one
tag kind has a positive count, the summary option is enabled, and the
display style is not "plain". -/
theorem print_summary_emission (tc : List (String × Nat)) (style : String) (s : Bool) :
    printSummaryEmits (summaryCounter s tc) style = true ↔
      (1 < countPositive tc ∧ s = true ∧ style ≠ "plain") := by
  cases s <;> simp [printSummaryEmits, summaryCounter, countPositive]

/-- C10: blame_lines is partial at its interface: empty blame output makes
the unconditional first-line access fail, and for an untracked file (fatal
output) an empty requested-line list makes the maximum computation fail
instead of yielding an empty result. -/
theorem blame_lines_partiality :
    (∀ (lineNums : List Nat) (today : Int), blame_lines [] lineNums today = none)
    ∧ (∀ (b0 : List Char) (rest : List (List Char)) (today : Int),
        ("fatal".toList).isPrefixOf b0 = true →
        blame_lines (b0 :: rest) [] today = none) := by
  constructor
  · intro ln t
    rfl
  · intro b0 rest t h
    simp only [blame_lines]
    rw [if_pos h]

/-- Witness for C10: both partiality points at concrete inputs. -/
theorem blame_lines_partiality_witness :
    blame_lines [] [1, 2] 0 = none ∧ blame_lines ["fatal: x".toList] [] 0 = none :=
  ⟨blame_lines_partiality.1 [1, 2] 0,
   blame_lines_partiality.2 ("fatal: x".toList) [] 0 (by decide)⟩

/-- C4: evaluation at the failing input: for an untracked file and the
single requested line 2, blame_lines returns three sentinel records, not
one per requested line as its docstring and the specification state. -/
theorem blame_lines_untracked_length :
    blame_lines ["fatal: not a git repository".toList] [2] 7 =
      some (List.replicate 3 ⟨"", 7⟩) ∧
    (List.replicate 3 (⟨"", 7⟩ : AuthorInfo)).length ≠ [2].length := by
  constructor <;> decide
/-- Every successful folder-line split produces exactly three groups. -/
lemma folderSplitAt_shape {l : List Char} {j : Nat} {gs : List (List Char)}
    (h : folderSplitAt l j = some gs) : ∃ a b c, gs = [a, b, c] := by
  unfold folderSplitAt at h
  split at h
  · split at h
    · exact absurd h (by simp)
    · dsimp only at h
      split at h
      · exact absurd h (by simp)
      · split at h
        · exact ⟨_, _, _, (Option.some.inj h).symm⟩
        · exact absurd h (by simp)
  · exact absurd h (by simp)

/-- Every successful folder-line match produces exactly three groups. -/
lemma matchFolderLine_shape {l : List Char} {gs : List (List Char)}
    (h : matchFolderLine l = some gs) : ∃ a b c, gs = [a, b, c] := by
  obtain ⟨j, _, hj⟩ := List.exists_of_findSome?_eq_some h
  exact folderSplitAt_shape hj

/-- Every successful file-line match produces exactly two groups. -/
lemma matchFileLine_shape {l : List Char} {gs : List (List Char)}
    (h : matchFileLine l = some gs) : ∃ a b, gs = [a, b] := by
  unfold matchFileLine at h
  dsimp only at h
  split at h
  · exact absurd h (by simp)
  · split at h
    · exact ⟨_, _, (Option.some.inj h).symm⟩
    · exact absurd h (by simp)

/-- The folder-mode parse loop never reaches its ParsingError branch. -/
lemma parseFolderLines_ok (lines : List (List Char))
    (acc : List (List Char × (List (List Char) × List (List Char)))) :
    ∃ r, parseFolderLines lines acc = .ok r := by
  induction lines generalizing acc with
  | nil => exact ⟨acc, rfl⟩
  | cons line rest ih =>
    cases hm : matchFolderLine line with
    | none => simpa [parseFolderLines, hm] using ih acc
    | some gs =>
      obtain ⟨a, b, c, rfl⟩ := matchFolderLine_shape hm
      simpa [parseFolderLines, hm] using ih (appendHit acc a b c)

/-- The file-mode parse loop never reaches its ParsingError branch. -/
lemma parseFileLines_ok (lines : List (List Char))
    (acc : List (List Char) × List (List Char)) :
    ∃ r, parseFileLines lines acc = .ok r := by
  induction lines generalizing acc with
  | nil => exact ⟨acc, rfl⟩
  | cons line rest ih =>
    cases hm : matchFileLine line with
    | none => simpa [parseFileLines, hm] using ih acc
    | some gs =>
      obtain ⟨a, b, rfl⟩ := matchFileLine_shape hm
      simpa [parseFileLines, hm] using ih (acc.1 ++ [a], acc.2 ++ [b])

/-- C9: the ParsingError raises in parse_rg_output_folder and
parse_rg_output_file are unreachable: whenever the line regex matches, the
group tuple has exactly three (folder mode) or two (file mode) fields, so
both parsers return normally on every input string. -/
theorem rg_parsers_never_raise (output : List Char) :
    (∃ r, parse_rg_output_folder output = .ok r)
    ∧ (∃ r, parse_rg_output_file output = .ok r) :=
  ⟨parseFolderLines_ok (splitlines output) [],
   parseFileLines_ok (splitlines output) ([], [])⟩
/-- Validity of a colon-digits-colon separation at position `j` of `l`: the
part of folderSplitAt that is independent of the newline side conditions. -/
def colonDigitColonAt (l : List Char) (j : Nat) : Bool :=
  match l.drop j with
  | ':' :: rest =>
    let ds := rest.takeWhile Char.isDigit
    !ds.isEmpty && ((rest.drop ds.length).head? == some ':')
  | _ => false

/-- Absence of any colon-digits-colon separation inside ":" ++ text: under
this condition the greedy split of a synthetic line cannot land at or after
the second separator colon. -/
def noLateSplit (text : List Char) : Bool :=
  (List.range (text.length + 1)).all fun j => !colonDigitColonAt (':' :: text) j

/-- Evaluation of the separation shape when the dropped suffix starts with
a colon. -/
lemma cdc_eval {l : List Char} {j : Nat} {rest : List Char}
    (heq : l.drop j = ':' :: rest) :
    colonDigitColonAt l j =
      (!(rest.takeWhile Char.isDigit).isEmpty &&
        ((rest.drop (rest.takeWhile Char.isDigit).length).head? == some ':')) := by
  unfold colonDigitColonAt
  rw [heq]
  rfl

/-- Failure of a separation attempt whenever the colon-digits-colon shape
is absent. -/
lemma folderSplitAt_none_of_cdc_false {l : List Char} {j : Nat}
    (h : colonDigitColonAt l j = false) : folderSplitAt l j = none := by
  unfold folderSplitAt
  split
  case _ rest heq =>
    rw [cdc_eval heq] at h
    split
    · rfl
    · dsimp only
      by_cases he : (rest.takeWhile Char.isDigit).isEmpty = true
      · rw [if_pos he]
      · rw [if_neg he]
        have h2 : ((rest.drop (rest.takeWhile Char.isDigit).length).head? ==
            some ':') = false := by
          cases hB : ((rest.drop (rest.takeWhile Char.isDigit).length).head? ==
              some ':') with
          | false => rfl
          | true =>
            rw [hB, Bool.and_true, Bool.not_eq_false'] at h
            exact absurd h he
        split
        case _ t heq2 =>
          rw [heq2] at h2
          simp at h2
        case _ => rfl
  case _ => rfl

/-- Dependence of the separation shape on the dropped suffix only. -/
lemma cdc_congr {l l2 : List Char} {j j2 : Nat} (h : l.drop j = l2.drop j2) :
    colonDigitColonAt l j = colonDigitColonAt l2 j2 := by
  unfold colonDigitColonAt
  rw [h]

/-- takeWhile across an append whose left part satisfies the predicate. -/
lemma takeWhile_append_all {p : Char → Bool} {a b : List Char} (h : ∀ c ∈ a, p c = true) :
    (a ++ b).takeWhile p = a ++ b.takeWhile p := by
  induction a with
  | nil => rfl
  | cons c t ih =>
    have hc := h c (by simp)
    have ht := ih fun x hx => h x (by simp [hx])
    simp [List.takeWhile_cons, hc, ht]

/-- First success of a descending index scan: when every index above `j0`
fails and `j0` succeeds, the reverse range scan returns the value at
`j0`. -/
lemma findSome?_reverse_range' {α : Type} (f : Nat → Option α) (a n j0 : Nat) (r : α)
    (ha : a ≤ j0) (hn : j0 < a + n)
    (habove : ∀ j, j0 < j → f j = none) (hj0 : f j0 = some r) :
    ((List.range' a n).reverse).findSome? f = some r := by
  have e1 : n = (n - (j0 + 1 - a)) + (j0 + 1 - a) := by omega
  have e3 : a + 1 * (j0 + 1 - a) = j0 + 1 := by omega
  have e2 : List.range' a n =
      List.range' a (j0 + 1 - a) ++ List.range' (j0 + 1) (n - (j0 + 1 - a)) := by
    have h := List.range'_append a (j0 + 1 - a) (n - (j0 + 1 - a)) 1
    rw [e3] at h
    conv_lhs => rw [e1]
    exact h.symm
  rw [e2, List.reverse_append, List.findSome?_append]
  have h1 : (List.range' (j0 + 1) (n - (j0 + 1 - a))).reverse.findSome? f = none := by
    apply List.findSome?_eq_none_iff.mpr
    intro x hx
    rw [List.mem_reverse] at hx
    have hx2 := List.mem_range'_1.mp hx
    exact habove x (by omega)
  rw [h1]
  simp only [Option.none_or]
  have e5 : j0 + 1 - a = (j0 - a) + 1 := by omega
  have e6 : a + 1 * (j0 - a) = j0 := by omega
  have e4 : List.range' a (j0 + 1 - a) = List.range' a (j0 - a) ++ [j0] := by
    rw [e5, List.range'_concat, e6]
  rw [e4, List.reverse_append]
  simp [hj0]

/-- Evaluation of a separation attempt whose dropped suffix starts with a
colon. -/
lemma folderSplitAt_eval {l : List Char} {j : Nat} {rest : List Char}
    (heq : l.drop j = ':' :: rest) :
    folderSplitAt l j =
      (if (l.take j).any (fun c => decide (c = '\n')) then none
       else
         let ds := rest.takeWhile Char.isDigit
         if ds.isEmpty then none
         else
           match rest.drop ds.length with
           | ':' :: t => some [l.take j, ds, t.takeWhile (fun c => decide (c ≠ '\n'))]
           | _ => none) := by
  unfold folderSplitAt
  rw [heq]
  rfl

/-- The folder-line match on a well-formed synthetic line lands at the end
of the file field and recovers the three fields verbatim. -/
lemma matchFolderLine_synthetic {file ds text : List Char}
    (hf : file ≠ []) (hfb : ∀ c ∈ file, isLineBoundary c = false)
    (hds : ds ≠ []) (hdd : ∀ c ∈ ds, Char.isDigit c = true)
    (htb : ∀ c ∈ text, isLineBoundary c = false)
    (hnl : noLateSplit text = true) :
    matchFolderLine (file ++ ':' :: ds ++ ':' :: text) = some [file, ds, text] := by
  have hassoc : file ++ ':' :: ds ++ ':' :: text = file ++ ':' :: (ds ++ ':' :: text) := by
    simp
  rw [hassoc]
  set L := file ++ ':' :: (ds ++ ':' :: text) with hL
  have hlen : L.length = file.length + ds.length + text.length + 2 := by
    simp [hL]
    omega
  have hdropn : L.drop file.length = ':' :: (ds ++ ':' :: text) := by
    rw [hL]
    exact List.drop_left file _
  have htaken : L.take file.length = file := by
    rw [hL]
    exact List.take_left file _
  have htw : (ds ++ ':' :: text).takeWhile Char.isDigit = ds := by
    rw [takeWhile_append_all hdd]
    simp [List.takeWhile_cons]
  have hdse : ds.isEmpty = false := by simp [List.isEmpty_iff, hds]
  have hdws : (ds ++ ':' :: text).drop ds.length = ':' :: text := List.drop_left ds _
  have htwt : text.takeWhile (fun c => decide (c ≠ '\n')) = text := by
    apply List.takeWhile_eq_self_iff.mpr
    intro c hc
    have hb := htb c hc
    simp only [decide_eq_true_eq]
    intro hcc
    rw [hcc] at hb
    exact absurd hb (by decide)
  have hanyf : (file.any fun c => decide (c = '\n')) = false := by
    rw [List.any_eq_false]
    intro c hc
    simp only [decide_eq_true_eq]
    intro hcc
    have hb := hfb c hc
    rw [hcc] at hb
    exact absurd hb (by decide)
  have hsplitn : folderSplitAt L file.length = some [file, ds, text] := by
    rw [folderSplitAt_eval hdropn, htaken, hanyf]
    rw [if_neg (by simp)]
    dsimp only
    rw [htw, hdse, hdws]
    rw [if_neg (by simp)]
    show some [file, ds, text.takeWhile (fun c => decide (c ≠ '\n'))] =
      some [file, ds, text]
    rw [htwt]
  have hnone : ∀ j, file.length < j → folderSplitAt L j = none := by
    intro j hj
    apply folderSplitAt_none_of_cdc_false
    by_cases hj1 : j ≤ file.length + ds.length
    · have e7 : j = file.length + (j - file.length - 1 + 1) := by omega
      have hdropj : L.drop j = ds.drop (j - file.length - 1) ++ ':' :: text := by
        rw [hL]
        conv_lhs => rw [e7]
        rw [List.drop_append, List.drop_succ_cons,
          List.drop_append_of_le_length (by omega)]
      obtain ⟨d, rest2, hds2⟩ : ∃ d rest2, ds.drop (j - file.length - 1) = d :: rest2 := by
        cases hdd2 : ds.drop (j - file.length - 1) with
        | nil =>
          exfalso
          have hle := List.drop_eq_nil_iff.mp hdd2
          omega
        | cons d r => exact ⟨d, r, rfl⟩
      have hdig : d.isDigit = true :=
        hdd d (List.drop_subset _ ds (by rw [hds2]; exact List.mem_cons_self d rest2))
      unfold colonDigitColonAt
      rw [hdropj, hds2]
      split
      case _ rest3 heq2 =>
        exfalso
        rw [List.cons_append] at heq2
        have hdc : d = ':' := (List.cons.injEq _ _ _ _ ▸ heq2).1
        rw [hdc] at hdig
        exact absurd hdig (by decide)
      case _ => rfl
    · have e8 : j = file.length + (1 + (ds.length + (j - file.length - ds.length - 1))) := by
        omega
      have hdropj : L.drop j = (':' :: text).drop (j - file.length - ds.length - 1) := by
        rw [hL]
        conv_lhs => rw [e8]
        rw [List.drop_append]
        have e9 : 1 + (ds.length + (j - file.length - ds.length - 1)) =
            (ds.length + (j - file.length - ds.length - 1)) + 1 := by omega
        rw [e9, List.drop_succ_cons, List.drop_append]
      by_cases hj3 : j - file.length - ds.length - 1 ≤ text.length
      · rw [cdc_congr hdropj]
        have hmem : j - file.length - ds.length - 1 ∈ List.range (text.length + 1) :=
          List.mem_range.mpr (by omega)
        have hall := List.all_eq_true.mp hnl _ hmem
        simp only [Bool.not_eq_true'] at hall
        exact hall
      · unfold colonDigitColonAt
        rw [hdropj, List.drop_eq_nil_of_le (by simp; omega)]
  unfold matchFolderLine
  exact findSome?_reverse_range' (folderSplitAt L) 1 (L.length - 1) file.length _
    (by rcases file with _ | ⟨c, t⟩
        · exact absurd rfl hf
        · simp only [List.length_cons]
          omega)
    (by omega) hnone hsplitn

/-- splitlines of a single line free of boundary characters. -/
lemma splitlines_single {l : List Char} (hne : l ≠ [])
    (hb : ∀ c ∈ l, isLineBoundary c = false) : splitlines l = [l] := by
  induction l with
  | nil => exact absurd rfl hne
  | cons c rest ih =>
    rw [splitlines_cons_nb (hb c (by simp))]
    cases hr : rest with
    | nil => rfl
    | cons d rest3 =>
      have hih := ih (by simp [hr]) fun x hx => hb x (by simp [hx])
      rw [hr] at hih
      rw [hih, ← hr]

/-- Joined search output: lines separated by a newline (the synthetic
construction of the round-trip property). -/
def joinLines : List (List Char) → List Char
  | [] => []
  | [l] => l
  | l :: rest => l ++ '\n' :: joinLines rest

/-- splitlines after appending a newline and a tail to a boundary-free
line. -/
lemma splitlines_append_nl {l : List Char}
    (hb : ∀ c ∈ l, isLineBoundary c = false) (tail : List Char) :
    splitlines (l ++ '\n' :: tail) = l :: splitlines tail := by
  induction l with
  | nil =>
    rw [List.nil_append, splitlines_cons_nl]
  | cons c rest ih =>
    rw [List.cons_append, splitlines_cons_nb (hb c (by simp)),
      ih fun x hx => hb x (by simp [hx])]

/-- splitlines recovers the lines of a newline join of non-empty
boundary-free lines. -/
lemma splitlines_joinLines {lines : List (List Char)}
    (h : ∀ l ∈ lines, l ≠ [] ∧ ∀ c ∈ l, isLineBoundary c = false) :
    splitlines (joinLines lines) = lines := by
  induction lines with
  | nil => rfl
  | cons l rest ih =>
    cases rest with
    | nil => exact splitlines_single (h l (by simp)).1 (h l (by simp)).2
    | cons l2 rest2 =>
      show splitlines (l ++ '\n' :: joinLines (l2 :: rest2)) = _
      rw [splitlines_append_nl (h l (by simp)).2]
      rw [ih fun x hx => h x (by simp [hx])]

/-- Digit characters are not line boundaries. -/
lemma digit_not_boundary {c : Char} (h : c.isDigit = true) : isLineBoundary c = false := by
  cases hB : isLineBoundary c with
  | false => rfl
  | true =>
    exfalso
    simp only [isLineBoundary, Bool.or_eq_true, decide_eq_true_eq] at hB
    rcases hB with (((((((((h1 | h1) | h1) | h1) | h1) | h1) | h1) | h1) | h1) | h1) <;>
      (subst h1; exact absurd h (by decide))

/-- The decimal digits of a natural number are digit characters and form a
non-empty list. -/
lemma toDecimal_digits (n : Nat) :
    (∀ c ∈ toDecimal n, Char.isDigit c = true) ∧ toDecimal n ≠ [] := by
  suffices h : ∀ fuel m, 0 < fuel →
      (∀ c ∈ toDecimalF fuel m, Char.isDigit c = true) ∧ toDecimalF fuel m ≠ [] by
    exact h (n + 1) n (by omega)
  intro fuel
  induction fuel with
  | zero => intro m h0; omega
  | succ f ih =>
    intro m _
    rw [toDecimalF]
    by_cases hm : m < 10
    · rw [if_pos hm]
      refine ⟨?_, by simp⟩
      intro c hc
      simp only [List.mem_singleton] at hc
      subst hc
      interval_cases m <;> decide
    · rw [if_neg hm]
      have hmod : m % 10 < 10 := Nat.mod_lt _ (by norm_num)
      have hdig : (Char.ofNat (48 + m % 10)).isDigit = true := by
        generalize m % 10 = r at hmod
        interval_cases r <;> decide
      cases hf : f with
      | zero =>
        refine ⟨?_, by simp⟩
        intro c hc
        rw [toDecimalF] at hc
        simp only [List.nil_append, List.mem_singleton] at hc
        subst hc
        exact hdig
      | succ f2 =>
        rw [← hf]
        have hih := ih (m / 10) (by omega)
        refine ⟨?_, by simp⟩
        intro c hc
        rw [List.mem_append] at hc
        rcases hc with hc | hc
        · exact hih.1 c hc
        · simp only [List.mem_singleton] at hc
          subst hc
          exact hdig
/-- Boundary-freeness of a well-formed synthetic line. -/
lemma synthetic_line_boundary_free {file ds text : List Char}
    (hfb : ∀ c ∈ file, isLineBoundary c = false)
    (hdd : ∀ c ∈ ds, Char.isDigit c = true)
    (htb : ∀ c ∈ text, isLineBoundary c = false) :
    ∀ c ∈ file ++ ':' :: ds ++ ':' :: text, isLineBoundary c = false := by
  intro c hc
  simp only [List.mem_append, List.mem_cons] at hc
  rcases hc with (hc | hc | hc) | hc | hc
  · exact hfb c hc
  · rw [hc]
    decide
  · exact digit_not_boundary (hdd c hc)
  · rw [hc]
    decide
  · exact htb c hc

/-- C2 counterexample: the folder parser does not split a line at the first
colon-digits-colon occurrence: on "a:1:b:2:t" the captured file path is
"a:1:b" (with line "2" and text "t"), not "a". -/
theorem parse_folder_not_first_split :
    parse_rg_output_folder ("a:1:b:2:t".toList) =
      .ok [("a:1:b".toList, (["2".toList], ["t".toList]))] ∧
    "a:1:b".toList ≠ "a".toList := by
  constructor
  · rfl
  · decide

/-- C2 amended: parse_rg_output_folder splits a line at the last
colon-digits-colon separation: the greedy file group absorbs every earlier
colon, so a file path containing colons is recovered intact, and the
remainder after the final separation is captured verbatim, provided the
text field admits no colon-digits-colon separation of its own. -/
theorem parse_folder_line_last_split {file ds text : List Char}
    (hf : file ≠ []) (hfb : ∀ c ∈ file, isLineBoundary c = false)
    (hds : ds ≠ []) (hdd : ∀ c ∈ ds, Char.isDigit c = true)
    (htb : ∀ c ∈ text, isLineBoundary c = false)
    (hnl : noLateSplit text = true) :
    parse_rg_output_folder (file ++ ':' :: ds ++ ':' :: text) =
      .ok [(file, ([ds], [text]))] := by
  unfold parse_rg_output_folder
  rw [splitlines_single (by simp [hf]) (synthetic_line_boundary_free hfb hdd htb)]
  simp only [parseFolderLines, matchFolderLine_synthetic hf hfb hds hdd htb hnl]
  rfl

/-- Witness for the amended C2 at a file path that itself contains a
colon-digits-colon pattern. -/
theorem parse_folder_line_last_split_witness :
    parse_rg_output_folder ("a:1:b".toList ++ ':' :: "2".toList ++ ':' :: "t".toList) =
      .ok [("a:1:b".toList, (["2".toList], ["t".toList]))] :=
  parse_folder_line_last_split (by decide) (by decide) (by decide) (by decide)
    (by decide) (by decide)

/-- C8 counterexample: the folder-mode round trip fails when a text field
itself contains a colon-digits-colon pattern: the single triple
("f", 1, "a:2:b") comes back as file "f:1:a", line "2", text "b". -/
theorem folder_roundtrip_counterexample :
    parse_rg_output_folder (joinLines [syntheticLine ("f".toList, 1, "a:2:b".toList)]) =
      .ok [("f:1:a".toList, (["2".toList], ["b".toList]))] ∧
    ("f:1:a".toList, (["2".toList], ["b".toList])) ≠
      ("f".toList, (["1".toList], ["a:2:b".toList])) := by
  constructor
  · rfl
  · decide

/-- C8 amended: the folder-mode round trip holds for every ordered list of
triples whose file fields are non-empty and boundary-free and whose text
fields are boundary-free and admit no colon-digits-colon separation: the
parse of the joined synthetic lines recovers exactly the original triples
grouped by file in insertion order, the per-file order preserved. -/
theorem folder_roundtrip {triples : List (List Char × Nat × List Char)}
    (h : ∀ tr ∈ triples, tr.1 ≠ [] ∧ (∀ c ∈ tr.1, isLineBoundary c = false) ∧
      (∀ c ∈ tr.2.2, isLineBoundary c = false) ∧ noLateSplit tr.2.2 = true) :
    parse_rg_output_folder (joinLines (triples.map syntheticLine)) =
      .ok (triples.foldl
        (fun acc tr => appendHit acc tr.1 (toDecimal tr.2.1) tr.2.2) []) := by
  unfold parse_rg_output_folder
  have hlines : ∀ l ∈ triples.map syntheticLine,
      l ≠ [] ∧ ∀ c ∈ l, isLineBoundary c = false := by
    intro l hl
    rw [List.mem_map] at hl
    obtain ⟨tr, htr, rfl⟩ := hl
    obtain ⟨h1, h2, h3, h4⟩ := h tr htr
    refine ⟨by simp [syntheticLine, h1], ?_⟩
    exact synthetic_line_boundary_free h2 (toDecimal_digits tr.2.1).1 h3
  rw [splitlines_joinLines hlines]
  suffices hgen : ∀ (ts : List (List Char × Nat × List Char))
      (acc : List (List Char × (List (List Char) × List (List Char)))),
      (∀ tr ∈ ts, tr.1 ≠ [] ∧ (∀ c ∈ tr.1, isLineBoundary c = false) ∧
        (∀ c ∈ tr.2.2, isLineBoundary c = false) ∧ noLateSplit tr.2.2 = true) →
      parseFolderLines (ts.map syntheticLine) acc =
        .ok (ts.foldl (fun acc tr => appendHit acc tr.1 (toDecimal tr.2.1) tr.2.2) acc) by
    exact hgen triples [] h
  intro ts
  induction ts with
  | nil => intro acc _; rfl
  | cons tr rest ih =>
    intro acc hc
    obtain ⟨h1, h2, h3, h4⟩ := hc tr (by simp)
    have hm : matchFolderLine (syntheticLine tr) =
        some [tr.1, toDecimal tr.2.1, tr.2.2] :=
      matchFolderLine_synthetic h1 h2 (toDecimal_digits tr.2.1).2
        (toDecimal_digits tr.2.1).1 h3 h4
    show parseFolderLines (syntheticLine tr :: rest.map syntheticLine) acc = _
    simp only [parseFolderLines, hm]
    exact ih (appendHit acc tr.1 (toDecimal tr.2.1) tr.2.2)
      fun x hx => hc x (by simp [hx])

/-- Witness for the amended C8 at three concrete triples over two files,
one file path containing a colon. -/
theorem folder_roundtrip_witness :
    parse_rg_output_folder (joinLines
      ([("f.py".toList, 3, "x".toList), ("g:2.py".toList, 14, "y y".toList),
        ("f.py".toList, 9, "z".toList)].map syntheticLine)) =
      .ok ([("f.py".toList, 3, "x".toList), ("g:2.py".toList, 14, "y y".toList),
        ("f.py".toList, 9, "z".toList)].foldl
        (fun acc tr => appendHit acc tr.1 (toDecimal tr.2.1) tr.2.2) []) :=
  folder_roundtrip (by decide)
/-- Membership of the value of head?. -/
lemma mem_of_head?_eq {α : Type} {l : List α} {a : α} (h : l.head? = some a) : a ∈ l := by
  cases l with
  | nil => simp at h
  | cons c t =>
    simp at h
    simp [h]

/-- dropWhile as a drop of the takeWhile length. -/
lemma dropWhile_eq_drop_len (p : Char → Bool) (l : List Char) :
    l.dropWhile p = l.drop (l.takeWhile p).length := by
  induction l with
  | nil => rfl
  | cons c t ih => by_cases hp : p c <;> simp [List.dropWhile_cons, List.takeWhile_cons, hp, ih]

/-- Congruence of List.any. -/
lemma any_congr_tokens {l : List (List Char)} {p q : List Char → Bool}
    (h : ∀ a ∈ l, p a = q a) : l.any p = l.any q := by
  induction l with
  | nil => rfl
  | cons a t ih =>
    simp only [List.any_cons, h a (by simp), ih fun x hx => h x (by simp [hx])]

/-- Closing tokens are non-empty. -/
lemma closerTokens_pos : ∀ tk ∈ closerTokens, 0 < tk.length := by decide

/-- Fuel irrelevance of the closer-sequence decider. -/
lemma isCloserSeqF_fuel : ∀ f1 f2 l, l.length ≤ f1 → l.length ≤ f2 →
    isCloserSeqF f1 l = isCloserSeqF f2 l := by
  intro f1
  induction f1 with
  | zero =>
    intro f2 l h1 h2
    have hl : l = [] := List.length_eq_zero.mp (by omega)
    subst hl
    cases f2 <;> rfl
  | succ f ih =>
    intro f2 l h1 h2
    cases l with
    | nil => cases f2 <;> rfl
    | cons c t =>
      cases f2 with
      | zero => simp at h2
      | succ f2b =>
        simp only [isCloserSeqF, List.isEmpty_cons, Bool.false_eq_true, if_false]
        apply any_congr_tokens
        intro tk htk
        cases hp : tk.isPrefixOf (c :: t) with
        | false => simp
        | true =>
          simp only [Bool.true_and]
          have hle := (List.isPrefixOf_iff_prefix.mp hp).length_le
          have hpos := closerTokens_pos tk htk
          simp only [List.length_cons] at h1 h2 hle
          apply ih
          · simp only [List.length_drop, List.length_cons]
            omega
          · simp only [List.length_drop, List.length_cons]
            omega

/-- One-step evaluation of the closer-sequence decider. -/
lemma isCloserSeq_eval (c : Char) (t : List Char) :
    isCloserSeq (c :: t) = closerTokens.any fun tk =>
      tk.isPrefixOf (c :: t) && isCloserSeq ((c :: t).drop tk.length) := by
  show isCloserSeqF (c :: t).length (c :: t) = _
  rw [show isCloserSeqF (c :: t).length (c :: t) =
    isCloserSeqF (t.length + 1) (c :: t) from rfl]
  simp only [isCloserSeqF, List.isEmpty_cons, Bool.false_eq_true, if_false]
  apply any_congr_tokens
  intro tk htk
  cases hp : tk.isPrefixOf (c :: t) with
  | false => simp
  | true =>
    simp only [Bool.true_and]
    have hle := (List.isPrefixOf_iff_prefix.mp hp).length_le
    have hpos := closerTokens_pos tk htk
    simp only [List.length_cons] at hle
    apply isCloserSeqF_fuel
    · simp only [List.length_drop, List.length_cons]
      omega
    · simp only [List.length_drop]
      omega

/-- Closer sequences are closed under concatenation. -/
lemma isCloserSeq_append : ∀ {u v : List Char}, isCloserSeq u = true →
    isCloserSeq v = true → isCloserSeq (u ++ v) = true := by
  suffices H : ∀ (n : Nat) (u v : List Char), u.length = n → isCloserSeq u = true →
      isCloserSeq v = true → isCloserSeq (u ++ v) = true by
    intro u v hu hv
    exact H u.length u v rfl hu hv
  intro n
  induction n using Nat.strong_induction_on with
  | _ n ih =>
    intro u v hlen hu hv
    cases u with
    | nil => simpa using hv
    | cons c t =>
      rw [isCloserSeq_eval, List.any_eq_true] at hu
      obtain ⟨tk, htk, hconj⟩ := hu
      rw [Bool.and_eq_true] at hconj
      obtain ⟨hp, hrest⟩ := hconj
      have hple := (List.isPrefixOf_iff_prefix.mp hp).length_le
      have hpos := closerTokens_pos tk htk
      rw [List.cons_append, isCloserSeq_eval, List.any_eq_true]
      refine ⟨tk, htk, ?_⟩
      rw [Bool.and_eq_true]
      constructor
      · rw [List.isPrefixOf_iff_prefix] at hp ⊢
        rw [← List.cons_append]
        exact hp.trans (List.prefix_append _ _)
      · rw [← List.cons_append, List.drop_append_of_le_length hple]
        apply ih ((c :: t).drop tk.length).length _ _ v rfl hrest hv
        simp only [List.length_cons] at hlen hple
        simp only [List.length_drop, List.length_cons]
        omega

/-- stripNl on a newline-free list. -/
lemma stripNl_of_no_nl {l : List Char} (h : '\n' ∉ l) : stripNl l = l := by
  unfold stripNl
  rw [if_neg]
  intro hg
  exact h (List.mem_of_mem_getLast? hg)

/-- closerTail on a newline-free list. -/
lemma closerTail_of_no_nl {l : List Char} (h : '\n' ∉ l) :
    closerTail l = isCloserSeq l := by
  rw [closerTail, stripNl_of_no_nl h]

/-- One-step evaluation of trailStrip. -/
lemma trailStrip_cons (c : Char) (rest : List Char) :
    trailStrip (c :: rest) =
      if closerTail (c :: rest) then
        (if isCloserSeq (c :: rest) then [] else ['\n'])
      else c :: trailStrip rest := rfl

/-- trailStrip of a newline-free list is a take whose dropped complement is
a closer sequence. -/
lemma trailStrip_spec : ∀ {y : List Char}, '\n' ∉ y →
    ∃ p, trailStrip y = y.take p ∧ isCloserSeq (y.drop p) = true := by
  intro y
  induction y with
  | nil => exact fun _ => ⟨0, rfl, rfl⟩
  | cons c t ih =>
    intro h
    rw [trailStrip_cons]
    by_cases hct : closerTail (c :: t) = true
    · rw [if_pos hct]
      rw [closerTail_of_no_nl h] at hct
      rw [if_pos hct]
      exact ⟨0, rfl, by simpa using hct⟩
    · rw [if_neg hct]
      obtain ⟨p, hp1, hp2⟩ := ih fun hm => h (by simp [hm])
      exact ⟨p + 1, by rw [hp1]; rfl, by simpa using hp2⟩

/-- trailStrip is idempotent on newline-free input. -/
lemma trailStrip_idem_no_nl : ∀ {y : List Char}, '\n' ∉ y →
    trailStrip (trailStrip y) = trailStrip y := by
  intro y
  induction y with
  | nil => exact fun _ => rfl
  | cons c t ih =>
    intro h
    have hnt : '\n' ∉ t := fun hm => h (by simp [hm])
    rw [trailStrip_cons]
    by_cases hct : closerTail (c :: t) = true
    · rw [if_pos hct, if_pos (by rwa [closerTail_of_no_nl h] at hct)]
      rfl
    · rw [if_neg hct]
      obtain ⟨p, hp1, hp2⟩ := trailStrip_spec hnt
      have hct2 : closerTail (c :: trailStrip t) = false := by
        cases hB : closerTail (c :: trailStrip t) with
        | false => rfl
        | true =>
          exfalso
          have hnts : '\n' ∉ c :: trailStrip t := by
            intro hm
            rcases List.mem_cons.mp hm with hm | hm
            · exact h (by simp [hm.symm])
            · rw [hp1] at hm
              exact hnt (List.take_subset _ _ hm)
          rw [closerTail_of_no_nl hnts, hp1] at hB
          have happ := isCloserSeq_append hB hp2
          rw [List.cons_append, List.take_append_drop] at happ
          exact hct (by rw [closerTail_of_no_nl h]; exact happ)
      rw [trailStrip_cons, if_neg (by simp [hct2]), ih hnt]
/-- Emptiness of the opening-token choices as the failure of all seven
pattern conditions. -/
lemma openerLens_nil_iff (y : List Char) : openerLens y = [] ↔
    (¬y.head? = some '#' ∧ ¬y.take 2 = ['/', '/'] ∧ ¬y.take 4 = ['<', '!', '-', '-'] ∧
     ¬y.take 2 = ['-', '-'] ∧ ¬y.take 2 = ['/', '*'] ∧ ¬y.take 3 = ['\"', '\"', '\"'] ∧
     ¬y.take 3 = ['\'', '\'', '\'']) := by
  unfold openerLens
  split_ifs with h1 h2 h3 h4 h5 h6 h7
  · obtain ⟨t, rfl⟩ : ∃ t, y = '#' :: t := by
      cases y with
      | nil => simp at h1
      | cons c t =>
        simp only [List.head?_cons, Option.some.injEq] at h1
        exact ⟨t, by rw [h1]⟩
    simp [List.takeWhile_cons, h1]
  · obtain ⟨t, rfl⟩ : ∃ t, y = '/' :: '/' :: t := by
      cases y with
      | nil => simp at h2
      | cons c rest =>
        cases rest with
        | nil => simp at h2
        | cons d t =>
          simp at h2
          exact ⟨t, by rw [h2.1, h2.2]⟩
    simp only [List.takeWhile_cons, h2]
    simp [List.range'_concat]
  all_goals simp_all
/-- The first opening-token choice consumes at least one character. -/
lemma openerLens_head_pos {l : List Char} {n : Nat}
    (h : (openerLens l).head? = some n) : 1 ≤ n := by
  unfold openerLens at h
  split_ifs at h with h1 h2 h3 h4 h5 h6 h7 <;>
    first
      | (have hm := mem_of_head?_eq h
         rw [List.mem_reverse] at hm
         have := List.mem_range'_1.mp hm
         omega)
      | (simp at h; omega)
      | simp at h

/-- A head character surviving take. -/
lemma head?_of_take {y : List Char} {p : Nat} {a : Char}
    (h : (y.take p).head? = some a) : y.head? = some a := by
  cases y with
  | nil => simp at h
  | cons c t =>
    cases p with
    | zero => simp at h
    | succ p2 => simpa using h

/-- A short take surviving an outer take. -/
lemma take_of_take {y L : List Char} {k p : Nat} (hL : L.length = k)
    (h : (y.take p).take k = L) : y.take k = L := by
  rw [List.take_take] at h
  rcases le_or_lt k p with hkp | hkp
  · rwa [Nat.min_eq_left hkp] at h
  · exfalso
    have hlen := congrArg List.length h
    rw [List.length_take] at hlen
    omega

/-- Prefixes of a string with no opening token have no opening token. -/
lemma openerLens_take_nil {y : List Char} {p : Nat} (h : openerLens y = []) :
    openerLens (y.take p) = [] := by
  rw [openerLens_nil_iff] at h ⊢
  obtain ⟨h1, h2, h3, h4, h5, h6, h7⟩ := h
  exact ⟨fun hc => h1 (head?_of_take hc),
    fun hc => h2 (take_of_take rfl hc),
    fun hc => h3 (take_of_take rfl hc),
    fun hc => h4 (take_of_take rfl hc),
    fun hc => h5 (take_of_take rfl hc),
    fun hc => h6 (take_of_take rfl hc),
    fun hc => h7 (take_of_take rfl hc)⟩

/-- chompOpeners yields a suffix of its input. -/
lemma chompOpeners_drop : ∀ (fuel : Nat) (l : List Char),
    ∃ r, chompOpeners fuel l = l.drop r := by
  intro fuel
  induction fuel with
  | zero => exact fun l => ⟨0, rfl⟩
  | succ f ih =>
    intro l
    cases hh : (openerLens l).head? with
    | some n =>
      obtain ⟨r, hr⟩ := ih (l.drop n)
      refine ⟨n + r, ?_⟩
      simp only [chompOpeners, hh]
      rw [hr, List.drop_drop]
    | none =>
      by_cases hw : l.takeWhile pySpace ≠ []
      · obtain ⟨r, hr⟩ := ih (l.dropWhile pySpace)
        refine ⟨(l.takeWhile pySpace).length + r, ?_⟩
        simp only [chompOpeners, hh, if_pos hw]
        rw [hr, dropWhile_eq_drop_len, List.drop_drop]
      · refine ⟨0, ?_⟩
        simp only [chompOpeners, hh, if_neg hw]
        rfl

/-- chompOpeners with sufficient fuel stops at a position with no opening
token. -/
lemma chomp_no_opener : ∀ (fuel : Nat) (l : List Char), l.length ≤ fuel →
    openerLens (chompOpeners fuel l) = [] := by
  intro fuel
  induction fuel with
  | zero =>
    intro l h
    have hl : l = [] := List.length_eq_zero.mp (by omega)
    subst hl
    rfl
  | succ f ih =>
    intro l h
    cases hh : (openerLens l).head? with
    | some n =>
      have hn := openerLens_head_pos hh
      simp only [chompOpeners, hh]
      apply ih
      simp only [List.length_drop]
      omega
    | none =>
      by_cases hw : l.takeWhile pySpace ≠ []
      · simp only [chompOpeners, hh, if_pos hw]
        apply ih
        have htp : 0 < (l.takeWhile pySpace).length := List.length_pos.mpr hw
        have hdl : (l.dropWhile pySpace).length = l.length - (l.takeWhile pySpace).length := by
          rw [dropWhile_eq_drop_len, List.length_drop]
        have htle : (l.takeWhile pySpace).length ≤ l.length :=
          (List.takeWhile_prefix pySpace).length_le
        omega
      · simp only [chompOpeners, hh, if_neg hw]
        exact List.head?_eq_none_iff.mp hh

/-- leadRemainder yields a suffix of its input. -/
lemma leadRemainder_drop (x : List Char) : ∃ r, leadRemainder x = x.drop r := by
  unfold leadRemainder
  cases hh : (openerLens x).head? with
  | some n =>
    obtain ⟨r, hr⟩ := chompOpeners_drop x.length (x.drop n)
    refine ⟨n + r, ?_⟩
    show chompOpeners x.length (x.drop n) = x.drop (n + r)
    rw [hr, List.drop_drop]
  | none => exact ⟨0, rfl⟩

/-- No opening token starts the remainder after the leading match. -/
lemma openerLens_leadRemainder (x : List Char) : openerLens (leadRemainder x) = [] := by
  unfold leadRemainder
  cases hh : (openerLens x).head? with
  | some n =>
    show openerLens (chompOpeners x.length (x.drop n)) = []
    apply chomp_no_opener
    simp [List.length_drop]
  | none => exact List.head?_eq_none_iff.mp hh

/-- leadRemainder is the identity when no opening token starts the
string. -/
lemma leadRemainder_noop {y : List Char} (h : openerLens y = []) :
    leadRemainder y = y := by
  unfold leadRemainder
  rw [h]
  rfl

/-- C3 counterexample: the cleaning operation of prettify_line is not
idempotent: on the string braces-newline-braces the first pass removes only
the final closer pair, and the second pass removes the now-trailing closer
pair before the newline. -/
theorem clean_not_idempotent :
    clean (clean (String.toList "\x7d\x7d\n\x7d\x7d")) ≠
      clean (String.toList "\x7d\x7d\n\x7d\x7d") := by
  decide

/-- C3 amended: the cleaning operation is idempotent on every newline-free
string; the texts it is applied to in print_parsed_file come from single
lines and contain no newline. -/
theorem clean_idempotent_no_newline (x : List Char) (h : '\n' ∉ x) :
    clean (clean x) = clean x := by
  unfold clean
  have hny : '\n' ∉ leadRemainder x := by
    obtain ⟨r, hr⟩ := leadRemainder_drop x
    rw [hr]
    intro hm
    exact h (List.drop_subset _ _ hm)
  obtain ⟨p, hp1, hp2⟩ := trailStrip_spec hny
  have hoz : openerLens (trailStrip (leadRemainder x)) = [] := by
    rw [hp1]
    exact openerLens_take_nil (openerLens_leadRemainder x)
  rw [leadRemainder_noop hoz]
  exact trailStrip_idem_no_nl hny

/-- Witness for the amended C3 at a decorated comment line. -/
theorem clean_idempotent_no_newline_witness :
    clean (clean (String.toList "# fix this -->")) =
      clean (String.toList "# fix this -->") :=
  clean_idempotent_no_newline (String.toList "# fix this -->") (by decide)
/-- Structure of a successful tag attempt at a fixed position. -/
lemma tryTagsAt_some {tags : List (List Char)} {s : List Char} {q : Nat}
    {tag txt : List Char} (h : tryTagsAt tags s q = some (tag, txt)) :
    tagAnchor s q = true ∧ tag ∈ tags ∧ tag.isPrefixOf (s.drop q) = true ∧
      matchAfterTag (s.drop (q + tag.length)) = some txt := by
  unfold tryTagsAt at h
  cases hB : tagAnchor s q with
  | false => rw [hB] at h; simp at h
  | true =>
    rw [hB] at h
    simp only [if_pos] at h
    obtain ⟨t, htmem, ht⟩ := List.exists_of_findSome?_eq_some h
    cases hp : t.isPrefixOf (s.drop q) with
    | false => rw [hp] at ht; simp at ht
    | true =>
      rw [hp] at ht
      simp only [if_pos, Option.map_eq_some'] at ht
      obtain ⟨txt2, hm, heq⟩ := ht
      obtain ⟨rfl, rfl⟩ := Prod.mk.injEq _ _ _ _ ▸ heq
      exact ⟨rfl, htmem, hp, hm⟩

/-- A successful separator-and-capture match needs a separator character
right after the tag. -/
lemma matchAfterTag_some_sep {l : List Char} {txt : List Char}
    (h : matchAfterTag l = some txt) : ∃ c cs, l = c :: cs ∧ sepClass c = true := by
  unfold matchAfterTag at h
  cases hm : (l.takeWhile sepClass).length with
  | zero =>
    rw [hm] at h
    simp [sepBacktrack] at h
  | succ k =>
    have hne : l.takeWhile sepClass ≠ [] := by
      intro he
      rw [he] at hm
      simp at hm
    cases l with
    | nil => simp at hne
    | cons c cs =>
      refine ⟨c, cs, rfl, ?_⟩
      cases hsc : sepClass c with
      | true => rfl
      | false =>
        exfalso
        rw [List.takeWhile_cons, if_neg (by rw [hsc]; simp)] at hne
        exact hne rfl

/-- Word characters are not whitespace. -/
lemma word_not_pySpace {c : Char} (h : isWordChar c = true) : pySpace c = false := by
  cases hB : pySpace c with
  | false => rfl
  | true =>
    exfalso
    simp only [pySpace, Bool.or_eq_true, decide_eq_true_eq] at hB
    rcases hB with ((((h1 | h1) | h1) | h1) | h1) | h1 <;>
      (subst h1; exact absurd h (by decide))

/-- Word characters are not separator characters. -/
lemma word_not_sepClass {c : Char} (h : isWordChar c = true) : sepClass c = false := by
  cases hB : sepClass c with
  | false => rfl
  | true =>
    exfalso
    simp only [sepClass, Bool.or_eq_true, decide_eq_true_eq] at hB
    rcases hB with ((hp | h1) | h1) | h1
    · rw [word_not_pySpace h] at hp
      exact absurd hp (by decide)
    all_goals (subst h1; exact absurd h (by decide))

/-- No opening token starts at a word character. -/
lemma openerLens_word_head {c : Char} {t : List Char} (h : isWordChar c = true) :
    openerLens (c :: t) = [] := by
  rw [openerLens_nil_iff]
  refine ⟨?_, ?_, ?_, ?_, ?_, ?_, ?_⟩ <;> intro hc
  · have hcc : c = '#' := by simpa using hc
    rw [hcc] at h
    exact absurd h (by decide)
  · obtain ⟨hcc, -⟩ : c = '/' ∧ t.take 1 = ['/'] := by simpa using hc
    rw [hcc] at h
    exact absurd h (by decide)
  · obtain ⟨hcc, -⟩ : c = '<' ∧ t.take 3 = ['!', '-', '-'] := by simpa using hc
    rw [hcc] at h
    exact absurd h (by decide)
  · obtain ⟨hcc, -⟩ : c = '-' ∧ t.take 1 = ['-'] := by simpa using hc
    rw [hcc] at h
    exact absurd h (by decide)
  · obtain ⟨hcc, -⟩ : c = '/' ∧ t.take 1 = ['*'] := by simpa using hc
    rw [hcc] at h
    exact absurd h (by decide)
  · obtain ⟨hcc, -⟩ : c = '\"' ∧ t.take 2 = ['\"', '\"'] := by simpa using hc
    rw [hcc] at h
    exact absurd h (by decide)
  · obtain ⟨hcc, -⟩ : c = '\'' ∧ t.take 2 = ['\'', '\''] := by simpa using hc
    rw [hcc] at h
    exact absurd h (by decide)

/-- Whitespace backtracking at a non-whitespace head offers only the empty
consumption. -/
lemma wsChoices_no_ws {c : Char} {t : List Char} (h : pySpace c = false) :
    wsChoices (c :: t) = [0] := by
  unfold wsChoices
  rw [List.takeWhile_cons, if_neg (by rw [h]; simp)]
  rfl

/-- Without an opening token the opener alternative offers nothing. -/
lemma repsPlusF_no_opener {fuel : Nat} {l : List Char} (h : openerLens l = []) :
    repsPlusF fuel l = [] := by
  simp [repsPlusF, repChoicesF, opPlusF, h]

/-- At a word-character head the prefix of the tags regex reaches only
position zero. -/
lemma prefixQs_word_head {c : Char} {t : List Char} (h : isWordChar c = true) :
    prefixQs (c :: t) 0 = [0] := by
  unfold prefixQs
  rw [if_pos rfl]
  simp only [List.drop_zero]
  rw [wsChoices_no_ws (word_not_pySpace h),
    repsPlusF_no_opener (openerLens_word_head h)]
  rfl
/-- One-step evaluation of lazyCapture. -/
lemma lazyCapture_cons (c : Char) (rest : List Char) :
    lazyCapture (c :: rest) =
      if c = '\n' then none
      else if closerTail rest then some [c]
      else (lazyCapture rest).map (c :: ·) := rfl

/-- The lazy capture takes a whole newline-free text none of whose proper
suffixes is a closer sequence. -/
lemma lazyCapture_full : ∀ {content : List Char}, content ≠ [] → '\n' ∉ content →
    (∀ e, e < content.length → 0 < e → isCloserSeq (content.drop e) = false) →
    lazyCapture content = some content := by
  intro content
  induction content with
  | nil => exact fun h _ _ => absurd rfl h
  | cons c t ih =>
    intro _ hnl hsuf
    rw [lazyCapture_cons, if_neg (by intro hc; exact hnl (by simp [hc]))]
    cases t with
    | nil =>
      rw [if_pos (by decide)]
    | cons d t2 =>
      have hct : closerTail (d :: t2) = false := by
        rw [closerTail_of_no_nl (fun hm => hnl (by simp [hm]))]
        exact hsuf 1 (by simp) (by omega)
      rw [if_neg (by simp [hct])]
      rw [ih (by simp) (fun hm => hnl (by simp [hm])) ?_]
      · rfl
      · intro e he hpos
        exact hsuf (e + 1) (by simp at he ⊢; omega) (by omega)

/-- The separator-and-capture match on a separator run followed by clean
content captures the content whole. -/
lemma matchAfterTag_synthetic {sep content : List Char}
    (hsep : sep ≠ []) (hsepc : ∀ c ∈ sep, sepClass c = true)
    (hcne : content ≠ []) (hch : ∀ c ∈ content.take 1, sepClass c = false)
    (hnl : '\n' ∉ content)
    (hsuf : ∀ e, e < content.length → 0 < e → isCloserSeq (content.drop e) = false) :
    matchAfterTag (sep ++ content) = some content := by
  unfold matchAfterTag
  have htwc : content.takeWhile sepClass = [] := by
    cases content with
    | nil => rfl
    | cons c cs =>
      rw [List.takeWhile_cons, if_neg (by rw [hch c (by simp)]; simp)]
  have htw : (sep ++ content).takeWhile sepClass = sep := by
    rw [takeWhile_append_all hsepc, htwc, List.append_nil]
  rw [htw]
  cases sep with
  | nil => exact absurd rfl hsep
  | cons c0 sep2 =>
    show sepBacktrack (sep2.length + 1) ((c0 :: sep2) ++ content) = some content
    rw [sepBacktrack]
    have hdrop : ((c0 :: sep2) ++ content).drop (sep2.length + 1) = content := by
      rw [show sep2.length + 1 = (c0 :: sep2).length from rfl]
      exact List.drop_left _ content
    rw [hdrop, lazyCapture_full hcne hnl hsuf]
    rfl

/-- findSome? over the tag alternation when exactly one tag succeeds. -/
lemma findSome?_unique {α β : Type} [DecidableEq α] {l : List α} {g : α → Option β}
    {a : α} {r : β} (hmem : a ∈ l) (hg : g a = some r)
    (hothers : ∀ b ∈ l, b ≠ a → g b = none) :
    l.findSome? g = some r := by
  induction l with
  | nil => simp at hmem
  | cons b rest ih =>
    by_cases hb : b = a
    · subst hb
      simp [List.findSome?_cons, hg]
    · rw [List.findSome?_cons, hothers b (by simp) hb]
      exact ih (by rcases List.mem_cons.mp hmem with h | h
                   · exact absurd h.symm hb
                   · exact h)
        fun x hx hxa => hothers x (by simp [hx]) hxa
/-- Failure of the separator match right after a word character. -/
lemma matchAfterTag_word_head {e : Char} {rest : List Char} (h : isWordChar e = true) :
    matchAfterTag (e :: rest) = none := by
  unfold matchAfterTag
  rw [List.takeWhile_cons, if_neg (by rw [word_not_sepClass h]; simp)]
  rfl

/-- findSome? of a cons whose head already succeeds. -/
lemma findSome?_cons_of_some {α β : Type} {g : α → Option β} {a : α} {l : List α}
    {r : β} (h : g a = some r) : (a :: l).findSome? g = some r := by
  simp [List.findSome?_cons, h]

/-- C1, amended: any successful search places the returned tag after the
start of the line or a word boundary and immediately before a separator
character, and any line made of a configured tag at the start of the line
followed by separators and clean content yields exactly that tag and that
content. -/
theorem tags_regex_match_spec :
    (∀ (tags : List (List Char)) (s tag txt : List Char),
      tagsSearch tags s = some (tag, txt) →
      tag ∈ tags ∧ ∃ q, (q = 0 ∨ wordBoundary s q = true) ∧
        tag.isPrefixOf (s.drop q) = true ∧
        ∃ c cs, s.drop (q + tag.length) = c :: cs ∧ sepClass c = true)
    ∧ (∀ (tags : List (List Char)) (tag sep content : List Char),
      (∀ t ∈ tags, t ≠ [] ∧ t.all isWordChar = true) → tag ∈ tags →
      sep ≠ [] → (∀ c ∈ sep, sepClass c = true) →
      content ≠ [] → (∀ c ∈ content.take 1, sepClass c = false) →
      '\n' ∉ content →
      (∀ e, e < content.length → 0 < e → isCloserSeq (content.drop e) = false) →
      tagsSearch tags (tag ++ (sep ++ content)) = some (tag, content)) := by
  constructor
  · intro tags s tag txt h
    obtain ⟨p, -, hp⟩ := List.exists_of_findSome?_eq_some h
    obtain ⟨q, -, hq⟩ := List.exists_of_findSome?_eq_some hp
    obtain ⟨hanc, hmem, hpre, hm⟩ := tryTagsAt_some hq
    obtain ⟨c, cs, hcs, hsc⟩ := matchAfterTag_some_sep hm
    refine ⟨hmem, q, ?_, hpre, c, cs, hcs, hsc⟩
    simpa [tagAnchor] using hanc
  · intro tags tag sep content htags htmem hsep hsepc hcne hch hnl hsuf
    obtain ⟨htne, htw⟩ := htags tag htmem
    have hmat : matchAfterTag (sep ++ content) = some content :=
      matchAfterTag_synthetic hsep hsepc hcne hch hnl hsuf
    have htry : tryTagsAt tags (tag ++ (sep ++ content)) 0 = some (tag, content) := by
      unfold tryTagsAt
      rw [if_pos (by simp [tagAnchor])]
      apply findSome?_unique htmem
      · rw [List.drop_zero, if_pos (by
          rw [List.isPrefixOf_iff_prefix]
          exact ⟨sep ++ content, rfl⟩)]
        rw [Nat.zero_add,
          show (tag ++ (sep ++ content)).drop tag.length = sep ++ content from
            List.drop_left tag _,
          hmat]
        rfl
      · intro t htl htne2
        rw [List.drop_zero]
        cases hp : t.isPrefixOf (tag ++ (sep ++ content)) with
        | false => rw [if_neg (by simp)]
        | true =>
          rw [if_pos rfl, Nat.zero_add]
          have htpre := List.isPrefixOf_iff_prefix.mp hp
          have htagpre : tag <+: tag ++ (sep ++ content) := ⟨sep ++ content, rfl⟩
          rcases List.prefix_or_prefix_of_prefix htpre htagpre with hcase | hcase
          · obtain ⟨extra2, hex2⟩ := hcase
            have hexne : extra2 ≠ [] := by
              intro he
              rw [he, List.append_nil] at hex2
              exact htne2 hex2
            cases extra2 with
            | nil => exact absurd rfl hexne
            | cons e2 ex3 =>
              have he2w : isWordChar e2 = true := by
                have he2mem : e2 ∈ tag := by
                  rw [← hex2]
                  simp
                exact List.all_eq_true.mp htw e2 he2mem
              have hdrop : (tag ++ (sep ++ content)).drop t.length =
                  e2 :: (ex3 ++ (sep ++ content)) := by
                rw [← hex2, List.append_assoc]
                rw [List.drop_left t _]
                rfl
              rw [hdrop, matchAfterTag_word_head he2w]
              rfl
          · obtain ⟨extra, hex⟩ := hcase
            have hexne : extra ≠ [] := by
              intro he
              rw [he, List.append_nil] at hex
              exact htne2 hex.symm
            obtain ⟨u, hu⟩ := htpre
            have hkey : extra ++ u = sep ++ content := by
              have h2 : tag ++ (extra ++ u) = tag ++ (sep ++ content) := by
                rw [← List.append_assoc, hex, hu]
              exact List.append_cancel_left h2
            exfalso
            cases extra with
            | nil => exact hexne rfl
            | cons e ex2 =>
              cases sep with
              | nil => exact hsep rfl
              | cons s0 sep2 =>
                have hhead : e = s0 := by
                  simp only [List.cons_append] at hkey
                  exact (List.cons.injEq _ _ _ _ ▸ hkey).1
                have hew : isWordChar e = true := by
                  have hemem : e ∈ t := by
                    rw [← hex]
                    simp
                  exact List.all_eq_true.mp (htags t htl).2 e hemem
                have hsc : sepClass s0 = true := hsepc s0 (by simp)
                rw [hhead] at hew
                rw [word_not_sepClass hew] at hsc
                exact absurd hsc (by decide)
    cases tag with
    | nil => exact absurd rfl htne
    | cons tc tag2 =>
      have hwc : isWordChar tc = true := List.all_eq_true.mp htw tc (by simp)
      have hanch : anchoredTags tags ((tc :: tag2) ++ (sep ++ content)) 0 =
          some (tc :: tag2, content) := by
        unfold anchoredTags
        have hQ : prefixQs ((tc :: tag2) ++ (sep ++ content)) 0 = [0] :=
          prefixQs_word_head hwc
        rw [hQ]
        exact findSome?_cons_of_some htry
      unfold tagsSearch
      rw [List.range'_succ 0 ((tc :: tag2) ++ (sep ++ content)).length 1]
      exact findSome?_cons_of_some hanch

/-- C1 counterexample: a line that contains a configured tag followed by a
separator and content, with the tag at a word boundary, yet yields no
match, because the tag is neither at the start of the line nor preceded by
comment-opening tokens. -/
theorem tags_regex_counterexample :
    tagsSearch [String.toList "TODO"] (String.toList "x TODO: a") = none ∧
    String.toList "x TODO: a" =
      String.toList "x " ++ String.toList "TODO" ++
        String.toList ": " ++ String.toList "a" ∧
    wordBoundary (String.toList "x TODO: a") 2 = true := by
  refine ⟨by decide, by decide, by decide⟩

/-- Witness for the amended C1: both conjuncts applied at a concrete
matched line. -/
theorem tags_regex_match_spec_witness :
    tagsSearch [String.toList "TODO"]
      (String.toList "TODO" ++ (String.toList ": " ++ String.toList "fix it")) =
      some (String.toList "TODO", String.toList "fix it") ∧
    String.toList "TODO" ∈ [String.toList "TODO"] := by
  refine ⟨tags_regex_match_spec.2 [String.toList "TODO"] (String.toList "TODO")
    (String.toList ": ") (String.toList "fix it") (by decide) (by decide) (by decide)
    (by decide) (by decide) (by decide) (by decide) (by decide),
    (tags_regex_match_spec.1 [String.toList "TODO"]
      (String.toList "TODO" ++ (String.toList ": " ++ String.toList "fix it"))
      (String.toList "TODO") (String.toList "fix it")
      (tags_regex_match_spec.2 [String.toList "TODO"] (String.toList "TODO")
        (String.toList ": ") (String.toList "fix it") (by decide) (by decide) (by decide)
        (by decide) (by decide) (by decide) (by decide) (by decide))).1⟩
end Listme
